import Mathlib

/-!
Verification of the Emmet-to-element expansion engine (src/index.js).

The JavaScript source is shallowly embedded: JS strings become Lean `String`
(reasoned about through their `List Char` data), JS `String.prototype`
operations (`indexOf`, `lastIndexOf`, `substring`, `split`, `replace`) are
modelled by executable Lean functions with the same semantics, DOM elements
become the pure `Element` descriptor tree, and thrown JS exceptions become
`Except Err` values.  The mutually recursive driver is given an explicit
fuel parameter (the JS recursion is bounded in practice by the number of
generated placeholders); running out of fuel is the distinguished error
`Err.fuelExhausted`, which never occurs at the fuel used by the entry point.
-/

namespace EmmetSpec

/-- Error outcomes of the engine.  `invalidExpression` models
`throw new Error("Invalid Emmet string provided")` (src/index.js:105);
`attributeSyntax` models the TypeError thrown at src/index.js:172 when an
attribute token has no `=` (so `parts[1]` is `undefined`), which the design
documents as the AttributeSyntaxError failure; `fuelExhausted` and
`internalUndefined` are artifacts of the embedding (fuel exhaustion, and
indexing `[0]` into an empty array, which is proved unreachable). -/
inductive Err where
  | invalidExpression
  | attributeSyntax
  | fuelExhausted
  | internalUndefined
  deriving DecidableEq, Repr

/-- Descriptor of one produced DOM element: tag name, `id` (set only when the
`#` part is present and non-empty), class list (as split on `.`, trimmed,
empties preserved), text content (set only when the extracted inner text is
non-empty), attribute pairs in order, and children in order. -/
inductive Element where
  | mk (tag : String) (idAttr : Option String) (classes : List String)
      (text : Option String) (attrs : List (String × String))
      (children : List Element)
  deriving Repr

mutual

/-- Structural equality of element descriptors is decidable. -/
def Element.decEq : (a b : Element) → Decidable (a = b)
  | .mk t1 i1 c1 x1 a1 ch1, .mk t2 i2 c2 x2 a2 ch2 =>
    match Element.decEqList ch1 ch2 with
    | isFalse h => isFalse (by intro he; injection he; contradiction)
    | isTrue hch =>
      if ht : t1 = t2 then
        if hi : i1 = i2 then
          if hc : c1 = c2 then
            if hx : x1 = x2 then
              if ha : a1 = a2 then
                isTrue (by rw [ht, hi, hc, hx, ha, hch])
              else isFalse (by intro he; injection he; contradiction)
            else isFalse (by intro he; injection he; contradiction)
          else isFalse (by intro he; injection he; contradiction)
        else isFalse (by intro he; injection he; contradiction)
      else isFalse (by intro he; injection he; contradiction)

/-- Structural equality of lists of element descriptors is decidable. -/
def Element.decEqList : (a b : List Element) → Decidable (a = b)
  | [], [] => isTrue rfl
  | [], _ :: _ => isFalse (by intro he; injection he)
  | _ :: _, [] => isFalse (by intro he; injection he)
  | x :: xs, y :: ys =>
    match Element.decEq x y, Element.decEqList xs ys with
    | isTrue h1, isTrue h2 => isTrue (by rw [h1, h2])
    | isFalse h1, _ => isFalse (by intro he; injection he; contradiction)
    | isTrue _, isFalse h2 => isFalse (by intro he; injection he; contradiction)

end

instance : DecidableEq Element := Element.decEq

instance {ε α : Type} [DecidableEq ε] [DecidableEq α] : DecidableEq (Except ε α) :=
  fun x y =>
    match x, y with
    | .ok a, .ok b =>
      if h : a = b then isTrue (by rw [h])
      else isFalse (by intro he; injection he; contradiction)
    | .error e, .error f =>
      if h : e = f then isTrue (by rw [h])
      else isFalse (by intro he; injection he; contradiction)
    | .ok _, .error _ => isFalse (by intro he; injection he)
    | .error _, .ok _ => isFalse (by intro he; injection he)

def Element.tag : Element → String
  | .mk t _ _ _ _ _ => t

def Element.idAttr : Element → Option String
  | .mk _ i _ _ _ _ => i

def Element.classes : Element → List String
  | .mk _ _ c _ _ _ => c

def Element.text : Element → Option String
  | .mk _ _ _ tx _ _ => tx

def Element.attrs : Element → List (String × String)
  | .mk _ _ _ _ a _ => a

def Element.children : Element → List Element
  | .mk _ _ _ _ _ ch => ch

/-! ### Models of the JavaScript string primitives -/

/-- Index of the first occurrence of `c` in `cs`, if any
(the `Nat`-valued core of JS `indexOf`). -/
def idxOf? (c : Char) : List Char → Option Nat
  | [] => none
  | x :: xs => if x = c then some 0 else (idxOf? c xs).map (· + 1)

/-- Index of the last occurrence of `c` in `cs`, if any
(the `Nat`-valued core of JS `lastIndexOf`). -/
def lastIdxOf? (c : Char) : List Char → Option Nat
  | [] => none
  | x :: xs =>
    match lastIdxOf? c xs with
    | some j => some (j + 1)
    | none => if x = c then some 0 else none

/-- JS `s.indexOf(c)`: first index of `c`, or `-1`. -/
def jsIndexOf (s : String) (c : Char) : Int :=
  match idxOf? c s.data with
  | some n => (n : Int)
  | none => -1

/-- JS `s.lastIndexOf(c)`: last index of `c`, or `-1`. -/
def jsLastIndexOf (s : String) (c : Char) : Int :=
  match lastIdxOf? c s.data with
  | some n => (n : Int)
  | none => -1

/-- Clamp a JS index argument into `[0, n]` as `String.prototype.substring`
does. -/
def clampIdx (n : Nat) (i : Int) : Nat :=
  (min (max i 0) (n : Int)).toNat

/-- JS `s.substring(a, b)`: both arguments clamped into `[0, length]`, then
swapped if out of order. -/
def jsSubstring (s : String) (a b : Int) : String :=
  let n := s.data.length
  let a' := clampIdx n a
  let b' := clampIdx n b
  String.mk ((s.data.drop (min a' b')).take (max a' b' - min a' b'))

/-- Core of JS `s.split(sep)` for a single-character separator, on character
lists.  Always returns at least one piece; `""` splits to `[""]`. -/
def jsSplitChar (sep : Char) : List Char → List (List Char)
  | [] => [[]]
  | c :: rest =>
    let r := jsSplitChar sep rest
    if c = sep then [] :: r
    else
      match r with
      | [] => [[c]]
      | h :: t => (c :: h) :: t

/-- JS `s.split(sep)` for a single-character separator. -/
def jsSplit (sep : Char) (s : String) : List String :=
  (jsSplitChar sep s.data).map String.mk

/-- Core of JS `s.replace(pat, rep)` with a plain-string pattern: replace the
first occurrence of `pat`, leave the string unchanged when `pat` does not
occur. -/
def listReplaceFirst (pat rep : List Char) : List Char → List Char
  | [] => if pat.isPrefixOf ([] : List Char) then rep else []
  | c :: rest =>
    if pat.isPrefixOf (c :: rest) then rep ++ (c :: rest).drop pat.length
    else c :: listReplaceFirst pat rep rest

/-- JS `s.replace(pat, rep)` (plain-string pattern, first occurrence). -/
def jsReplaceFirst (s pat rep : String) : String :=
  String.mk (listReplaceFirst pat.data rep.data s.data)

/-- A character matched by the JS `\s` class among those our inputs can
contain after tab/newline/carriage-return removal, plus those three. -/
def jsWhitespace (c : Char) : Bool :=
  c = ' ' || c = '\t' || c = '\n' || c = '\r' || c = '\x0b' || c = '\x0c'

/-- Remove every tab, newline and carriage return
(JS `replace(/[\t\n\r]/g, "")`, src/index.js:132,148). -/
def stripTNR (cs : List Char) : List Char :=
  cs.filter (fun c => !(c = '\t' || c = '\n' || c = '\r'))

/-- Collapse each maximal run of whitespace to a single space
(JS `replace(/\s+/g, " ")`); the `Bool` records whether the previous
character was whitespace. -/
def collapseWsAux : Bool → List Char → List Char
  | _, [] => []
  | prevWs, c :: rest =>
    if jsWhitespace c then
      if prevWs then collapseWsAux true rest
      else ' ' :: collapseWsAux true rest
    else c :: collapseWsAux false rest

/-- The whitespace normalization both entry points apply first
(src/index.js:132 and :148). -/
def normalize (s : String) : String :=
  String.mk (collapseWsAux false (stripTNR s.data))

/-- JS `s.trim()`: remove leading and trailing whitespace. -/
def jsTrim (s : String) : String :=
  String.mk (((s.data.dropWhile jsWhitespace).reverse.dropWhile jsWhitespace).reverse)

/-- Decimal digit character (values above 9 do not occur: the argument is
always `n % 10` or a number below 10). -/
def digitChar : Nat → Char
  | 0 => '0' | 1 => '1' | 2 => '2' | 3 => '3' | 4 => '4'
  | 5 => '5' | 6 => '6' | 7 => '7' | 8 => '8' | 9 => '9'
  | _ => '*'

/-- Decimal digits of `n`, most significant first, computed with enough
structural fuel (the first argument). -/
def natDigitsAux : Nat → Nat → List Char
  | 0, _ => []
  | fuel + 1, n =>
    if n < 10 then [digitChar n]
    else natDigitsAux fuel (n / 10) ++ [digitChar (n % 10)]

/-- Decimal digits of `n`, most significant first (the JS template-literal
rendering `${identifierCount}` of a nonnegative integer). -/
def natDigits (n : Nat) : List Char :=
  natDigitsAux (n + 1) n

/-- Decimal rendering of `n`. -/
def natToString (n : Nat) : String :=
  String.mk (natDigits n)

/-! ### The leaf expander (`simplifiedEmmetToElement`, src/index.js:147-192) -/

/-- Inner-text extraction (src/index.js:150-156): if a `{` occurs, the text is
`substring(lastIndexOf("{") + 1, indexOf("}"))` and the working string is cut
at the last `{`.  Returns `(innerText, workingString)`. -/
def extractText (s : String) : String × String :=
  let ti := jsLastIndexOf s '{'
  if ti = -1 then ("", s)
  else (jsSubstring s (ti + 1) (jsIndexOf s '}'), jsSubstring s 0 ti)

/-- Attribute-block text `substring(lastIndexOf("[") + 1, indexOf("]"))`
(src/index.js:162-165). -/
def attributeText (s : String) : String :=
  jsSubstring s (jsLastIndexOf s '[' + 1) (jsIndexOf s ']')

/-- The whitespace-separated, non-blank attribute tokens of the attribute
block (src/index.js:166-169); empty when no `[` occurs. -/
def attributeTokens (s : String) : List String :=
  if jsLastIndexOf s '[' = -1 then []
  else (jsSplit ' ' (jsTrim (attributeText s))).filter (fun i => jsTrim i ≠ "")

/-- One attribute token (src/index.js:170-174): split on `=`; accessing
`parts[1]` when there is no `=` is the AttributeSyntaxError failure; a value
containing `"` is cut to `substring(1, lastIndexOf('"'))`. -/
def parseAttrToken (attr : String) : Except Err (String × String) :=
  match jsSplit '=' (jsTrim attr) with
  | p0 :: p1 :: _ =>
    if jsIndexOf p1 '"' ≠ -1 then
      .ok (p0, jsSubstring p1 1 (jsLastIndexOf p1 '"'))
    else .ok (p0, p1)
  | _ => .error .attributeSyntax

/-- Parse the attribute tokens left to right, propagating the first failure
(the JS `Array.prototype.map` callback throws at the first bad token). -/
def parseAttrList : List String → Except Err (List (String × String))
  | [] => .ok []
  | a :: rest => do
    let p ← parseAttrToken a
    let ps ← parseAttrList rest
    .ok (p :: ps)

/-- Attribute extraction (src/index.js:158-177): parse the tokens of the
block and splice the `[...]` block out of the working string.  Returns
`(attributes, workingString)`. -/
def extractAttributes (s : String) : Except Err (List (String × String) × String) :=
  if jsLastIndexOf s '[' = -1 then .ok ([], s)
  else do
    let attrs ← parseAttrList (attributeTokens s)
    .ok (attrs, jsReplaceFirst s ("[" ++ attributeText s ++ "]") "")

/-- Tag/id/class parsing (src/index.js:179-183): split on `.`, first piece
split on `#`; tag defaults to `"div"` when blank; classes trimmed, empty
class tokens preserved. -/
def parseTagIdClasses (s : String) : String × Option String × List String :=
  match jsSplit '.' s with
  | [] => ("div", none, [])
  | beforeClasses :: classes =>
    let bits := jsSplit '#' beforeClasses
    let tagName := bits.headD ""
    let idv : Option String :=
      match bits with
      | _ :: i :: _ => if i = "" then none else some (jsTrim i)
      | _ => none
    ((if jsTrim tagName = "" then "div" else jsTrim tagName), idv,
      classes.map jsTrim)

/-- The leaf expander `simplifiedEmmetToElement` (src/index.js:147-192):
normalize whitespace, extract text, extract attributes, parse
tag/id/classes, and build the element (id set only when truthy, text set
only when non-empty, no children). -/
def simplifiedEmmetToElement (s : String) : Except Err Element :=
  let s0 := normalize s
  let p := extractText s0
  do
    let aws ← extractAttributes p.2
    let tic := parseTagIdClasses aws.2
    .ok (Element.mk tic.1 tic.2.1 tic.2.2
      (if p.1 = "" then none else some p.1) aws.1 [])

/-! ### The grouping preprocessor (`splitEmmetIntoSections`, src/index.js:48-76) -/

/-- Read non-parenthesis characters up to a `)` (the regex tail `[^()]*\)`
starting just after a `(`): returns `(inner, after)` when it succeeds. -/
def scanInner : List Char → Option (List Char × List Char)
  | [] => none
  | c :: rest =>
    if c = ')' then some ([], rest)
    else if c = '(' then none
    else
      match scanInner rest with
      | some (inner, after) => some (c :: inner, after)
      | none => none

/-- Leftmost match of the regex `\(([^()]*)\)` (src/index.js:63): the first
innermost parenthesized group, returned as `(before, inner, after)`. -/
def findGroup : List Char → Option (List Char × List Char × List Char)
  | [] => none
  | c :: rest =>
    if c = '(' then
      match scanInner rest with
      | some (inner, after) => some ([], inner, after)
      | none =>
        match findGroup rest with
        | some (b, i, a) => some (c :: b, i, a)
        | none => none
    else
      match findGroup rest with
      | some (b, i, a) => some (c :: b, i, a)
      | none => none

/-- The `while ((matchedGroup = regPattern.exec(emmetString)) !== null)` loop
(src/index.js:65-70): as long as a group matches, replace the first
occurrence of `"(" + inner + ")"` by the fresh identifier `seg ++ k` and
record `(identifier, inner)` in the map.  `fuel` bounds the iteration count
(the entry point passes `length + 1`, which is proved sufficient). -/
def sectionLoop (seg : String) : Nat → Nat → String → List (String × String) →
    String × List (String × String)
  | 0, _, s, acc => (s, acc)
  | fuel + 1, k, s, acc =>
    match findGroup s.data with
    | none => (s, acc)
    | some (_, inner, _) =>
      let ident := seg ++ natToString k
      let s' := jsReplaceFirst s ("(" ++ String.mk inner ++ ")") ident
      sectionLoop seg fuel (k + 1) s' (acc ++ [(ident, String.mk inner)])

/-- Function `splitEmmetIntoSections` (src/index.js:48-76): run the replacement loop
on the (already normalized) string with counter starting at 0, returning the
flattened string and the placeholder map. -/
def splitEmmetIntoSections (seg : String) (s : String) :
    String × List (String × String) :=
  sectionLoop seg (s.length + 1) 0 s []

/-! ### The driver (`emmetToElements`, src/index.js:37-137) -/

/-- The `traversalParent`-style child attachment of `createParental`
(src/index.js:109-115): the elements of each resolved piece are appended to
the current attachment point, which then moves to the first element of that
piece. -/
def attachChain : List (List Element) → Element → Element
  | [], p => p
  | r :: rest, p =>
    let r' : List Element :=
      match r with
      | [] => []
      | h :: t => attachChain rest h :: t
    match p with
    | .mk tg iv cl tx av ch => .mk tg iv cl tx av (ch ++ r')

mutual

/-- Function `createParalel` (src/index.js:86-90): split on `+`, trim each piece,
expand each piece through `createParental`. -/
def createParalel (m : List (String × String)) : Nat → String → Except Err (List Element)
  | 0, _ => .error .fuelExhausted
  | fuel + 1, s => parMap m fuel ((jsSplit '+' s).map jsTrim)

/-- The `elements.map((element) => createParental(element))` traversal, with
the first thrown error propagating. -/
def parMap (m : List (String × String)) : Nat → List String → Except Err (List Element)
  | 0, _ => .error .fuelExhausted
  | _ + 1, [] => .ok []
  | fuel + 1, x :: xs => do
    let e ← createParental m fuel x
    let es ← parMap m fuel xs
    .ok (e :: es)

/-- Function `createParental` (src/index.js:100-117): split on `>`, trim; an empty
first piece throws `invalidExpression`; the first piece's first element is
the chain root; each later piece's elements are appended at the traversal
point, which then moves to that piece's first element. -/
def createParental (m : List (String × String)) : Nat → String → Except Err Element
  | 0, _ => .error .fuelExhausted
  | fuel + 1, s =>
    match (jsSplit '>' s).map jsTrim with
    | [] => .error .internalUndefined
    | first :: rest =>
      if first = "" then .error .invalidExpression
      else do
        let es ← createHTMLElement m fuel first
        match es with
        | [] => .error .internalUndefined
        | p :: _ => do
          let rss ← chainMap m fuel rest
          .ok (attachChain rss p)

/-- The `components.forEach` resolution of the later chain pieces, in order,
with the first thrown error propagating. -/
def chainMap (m : List (String × String)) : Nat → List String → Except Err (List (List Element))
  | 0, _ => .error .fuelExhausted
  | _ + 1, [] => .ok []
  | fuel + 1, x :: xs => do
    let r ← createHTMLElement m fuel x
    let rs ← chainMap m fuel xs
    .ok (r :: rs)

/-- Function `createHTMLElement` (src/index.js:125-130): a component that is a key of
the placeholder map re-enters `createParalel` on the recorded text;
otherwise it is a leaf for `simplifiedEmmetToElement`. -/
def createHTMLElement (m : List (String × String)) : Nat → String → Except Err (List Element)
  | 0, _ => .error .fuelExhausted
  | fuel + 1, s =>
    match m.lookup s with
    | some content => createParalel m fuel content
    | none =>
      match simplifiedEmmetToElement s with
      | .ok e => .ok [e]
      | .error err => .error err

end

/-- The full-grammar entry point `emmetToElements` (src/index.js:37-137).
`r` models the drawn value of `parseInt(Math.random()*1000)` (so the
placeholder prefix is `"segment_" ++ r`); `fuel` bounds the recursion of the
embedding.  Normalizes whitespace, runs the grouping preprocessor, and
expands the flattened string through `createParalel`. -/
def emmetToElements (r : Nat) (fuel : Nat) (s : String) : Except Err (List Element) :=
  let seg := "segment_" ++ natToString r
  let s0 := normalize s
  let dm := splitEmmetIntoSections seg s0
  createParalel dm.2 fuel dm.1

/-! ### Specification-side descriptions (for the amended claims)

These definitions restate, in plain list operations, what the amended
claims say the code computes; the claim theorems relate them to the
source-derived functions above. -/

/-- Amended text rule: the text is the substring between the last `{`
(at index `i`) and the first `}` of the whole token (index defaulting to 0
when there is no `}`), with the two bounds swapped when out of order. -/
def textSpecAmended (cs : List Char) (i : Nat) : List Char :=
  let j0 : Nat :=
    match idxOf? '}' cs with
    | some j => j
    | none => 0
  (cs.drop (min (i + 1) j0)).take (max (i + 1) j0 - min (i + 1) j0)

/-- Amended attribute-value rule: when the raw value contains a `"`, the
stored value is the raw value with its first character dropped and cut
before the last `"` (bounds swapped when the last `"` is the first
character); otherwise the raw value itself. -/
def valueSpecAmended (p1 : List Char) : List Char :=
  match lastIdxOf? '"' p1 with
  | none => p1
  | some j => (p1.drop (min 1 j)).take (max 1 j - min 1 j)

/-! ### Basic facts about the JS string-primitive models -/

theorem jsSplitChar_cons (sep c : Char) (rest : List Char) :
    jsSplitChar sep (c :: rest) =
      if c = sep then [] :: jsSplitChar sep rest
      else
        match jsSplitChar sep rest with
        | [] => [[c]]
        | h :: t => (c :: h) :: t := rfl

theorem jsSplitChar_ne_nil {sep : Char} : ∀ {cs : List Char}, jsSplitChar sep cs ≠ []
  | [] => by simp [jsSplitChar]
  | c :: rest => by
    rw [jsSplitChar_cons]
    by_cases hc : c = sep
    · simp [hc]
    · rw [if_neg hc]
      match h : jsSplitChar sep rest with
      | [] => simp
      | x :: xs => simp

theorem jsSplit_ne_nil {sep : Char} {s : String} : jsSplit sep s ≠ [] := by
  unfold jsSplit
  intro h
  exact jsSplitChar_ne_nil (List.map_eq_nil_iff.mp h)

theorem jsSplitChar_length {sep : Char} :
    ∀ cs : List Char, (jsSplitChar sep cs).length = cs.count sep + 1 := by
  intro cs
  induction cs with
  | nil => simp [jsSplitChar]
  | cons c rest ih =>
    rw [jsSplitChar_cons]
    by_cases hc : c = sep
    · simp [hc, List.count_cons, ih]
    · rw [if_neg hc]
      match h : jsSplitChar sep rest with
      | [] => exact absurd h jsSplitChar_ne_nil
      | x :: xs =>
        rw [h] at ih
        simp only [List.length_cons] at ih ⊢
        simp only [List.count_cons, beq_iff_eq]
        rw [if_neg hc]
        omega

theorem jsSplitChar_of_not_mem {sep : Char} :
    ∀ {cs : List Char}, sep ∉ cs → jsSplitChar sep cs = [cs]
  | [], _ => by simp [jsSplitChar]
  | c :: rest, h => by
    have hc : ¬c = sep := fun hc => h (hc ▸ List.mem_cons_self c rest)
    have hrest : sep ∉ rest := fun hr => h (List.mem_cons_of_mem c hr)
    rw [jsSplitChar_cons, if_neg hc, jsSplitChar_of_not_mem hrest]

theorem jsSplitChar_of_mem {sep : Char} :
    ∀ {cs : List Char}, sep ∈ cs →
      jsSplitChar sep cs =
        cs.takeWhile (fun c => c ≠ sep) ::
          jsSplitChar sep ((cs.dropWhile (fun c => c ≠ sep)).drop 1)
  | c :: rest, h => by
    by_cases hc : c = sep
    · subst hc
      rw [jsSplitChar_cons, if_pos rfl]
      have ht : List.takeWhile (fun x => decide (x ≠ c)) (c :: rest) = [] := by
        rw [List.takeWhile_cons]
        simp
      have hd : List.dropWhile (fun x => decide (x ≠ c)) (c :: rest) = c :: rest := by
        rw [List.dropWhile_cons]
        simp
      simp only [ne_eq] at ht hd ⊢
      rw [ht, hd]
      simp
    · have hrest : sep ∈ rest := by
        cases List.mem_cons.mp h with
        | inl h0 => exact absurd h0.symm hc
        | inr h0 => exact h0
      rw [jsSplitChar_cons, if_neg hc, jsSplitChar_of_mem hrest]
      have ht : List.takeWhile (fun x => decide (x ≠ sep)) (c :: rest) =
          c :: List.takeWhile (fun x => decide (x ≠ sep)) rest := by
        rw [List.takeWhile_cons]
        simp [hc]
      have hd : List.dropWhile (fun x => decide (x ≠ sep)) (c :: rest) =
          List.dropWhile (fun x => decide (x ≠ sep)) rest := by
        rw [List.dropWhile_cons]
        simp [hc]
      simp only [ne_eq] at ht hd ⊢
      rw [ht, hd]

theorem jsSplitChar_head {sep : Char} (cs : List Char) :
    ∃ t, jsSplitChar sep cs = cs.takeWhile (fun c => c ≠ sep) :: t := by
  by_cases h : sep ∈ cs
  · exact ⟨_, jsSplitChar_of_mem h⟩
  · refine ⟨[], ?_⟩
    have ht : List.takeWhile (fun c => decide (c ≠ sep)) cs = cs := by
      rw [List.takeWhile_eq_self_iff]
      intro x hx
      simp only [decide_eq_true_eq]
      exact fun hxe => h (hxe ▸ hx)
    simp only [ne_eq] at ht ⊢
    rw [jsSplitChar_of_not_mem h, ht]

theorem idxOf?_cons (c x : Char) (xs : List Char) :
    idxOf? c (x :: xs) =
      if x = c then some 0 else (idxOf? c xs).map (· + 1) := rfl

theorem lastIdxOf?_cons (c x : Char) (xs : List Char) :
    lastIdxOf? c (x :: xs) =
      match lastIdxOf? c xs with
      | some j => some (j + 1)
      | none => if x = c then some 0 else none := rfl

theorem idxOf?_lt_length {c : Char} :
    ∀ {cs : List Char} {i : Nat}, idxOf? c cs = some i → i < cs.length
  | x :: xs, i, h => by
    rw [idxOf?_cons] at h
    by_cases hx : x = c
    · rw [if_pos hx] at h
      cases h
      simp
    · rw [if_neg hx] at h
      obtain ⟨a, ha, hai⟩ := Option.map_eq_some'.mp h
      have := idxOf?_lt_length ha
      simp only [List.length_cons]
      omega

theorem lastIdxOf?_lt_length {c : Char} :
    ∀ {cs : List Char} {i : Nat}, lastIdxOf? c cs = some i → i < cs.length
  | x :: xs, i, h => by
    rw [lastIdxOf?_cons] at h
    match hx : lastIdxOf? c xs with
    | some a =>
      rw [hx] at h
      cases h
      have := lastIdxOf?_lt_length hx
      simp only [List.length_cons]
      omega
    | none =>
      rw [hx] at h
      by_cases hxc : x = c
      · rw [if_pos hxc] at h
        cases h
        simp
      · rw [if_neg hxc] at h
        cases h

theorem idxOf?_eq_none_iff {c : Char} :
    ∀ {cs : List Char}, idxOf? c cs = none ↔ c ∉ cs
  | [] => by simp [idxOf?]
  | x :: xs => by
    rw [idxOf?_cons]
    by_cases hx : x = c
    · subst hx
      simp
    · rw [if_neg hx, Option.map_eq_none', idxOf?_eq_none_iff]
      simp only [List.mem_cons, not_or]
      exact ⟨fun h => ⟨fun he => hx he.symm, h⟩, fun h => h.2⟩

theorem lastIdxOf?_eq_none_iff {c : Char} :
    ∀ {cs : List Char}, lastIdxOf? c cs = none ↔ c ∉ cs
  | [] => by simp [lastIdxOf?]
  | x :: xs => by
    rw [lastIdxOf?_cons]
    match hx : lastIdxOf? c xs with
    | some a =>
      have hmem : c ∈ xs := by
        by_contra hm
        rw [lastIdxOf?_eq_none_iff.mpr hm] at hx
        cases hx
      simp [hmem]
    | none =>
      have hxs : c ∉ xs := lastIdxOf?_eq_none_iff.mp hx
      by_cases hxc : x = c
      · simp [if_pos hxc, hxc]
      · rw [if_neg hxc]
        simp only [List.mem_cons, not_or]
        exact iff_of_true trivial ⟨fun he => hxc he.symm, hxs⟩

theorem clampIdx_coe {n k : Nat} (h : k ≤ n) : clampIdx n (k : Int) = k := by
  unfold clampIdx
  omega

theorem clampIdx_neg_one {n : Nat} : clampIdx n (-1) = 0 := by
  unfold clampIdx
  omega

/-! ### Facts about the grouping preprocessor -/

theorem scanInner_sound :
    ∀ {cs inner after : List Char}, scanInner cs = some (inner, after) →
      cs = inner ++ ')' :: after ∧ '(' ∉ inner ∧ ')' ∉ inner
  | c :: rest, inner, after, h => by
    unfold scanInner at h
    by_cases h1 : c = ')'
    · rw [if_pos h1] at h
      cases h
      subst h1
      simp
    · rw [if_neg h1] at h
      by_cases h2 : c = '('
      · rw [if_pos h2] at h
        cases h
      · rw [if_neg h2] at h
        match hs : scanInner rest with
        | none => rw [hs] at h; cases h
        | some (inner', after') =>
          rw [hs] at h
          cases h
          obtain ⟨he, hl, hr⟩ := scanInner_sound hs
          refine ⟨by rw [he]; simp, ?_, ?_⟩
          · simp only [List.mem_cons, not_or]
            exact ⟨fun hc => h2 hc.symm, hl⟩
          · simp only [List.mem_cons, not_or]
            exact ⟨fun hc => h1 hc.symm, hr⟩

theorem findGroup_sound :
    ∀ {cs b i a : List Char}, findGroup cs = some (b, i, a) →
      cs = b ++ '(' :: (i ++ ')' :: a) ∧ '(' ∉ i ∧ ')' ∉ i
  | c :: rest, b, i, a, h => by
    unfold findGroup at h
    by_cases h1 : c = '('
    · rw [if_pos h1] at h
      match hs : scanInner rest with
      | some (inner, after) =>
        rw [hs] at h
        cases h
        obtain ⟨he, hl, hr⟩ := scanInner_sound hs
        subst h1
        exact ⟨by rw [he]; simp, hl, hr⟩
      | none =>
        rw [hs] at h
        match hf : findGroup rest with
        | some (b', i', a') =>
          rw [hf] at h
          cases h
          obtain ⟨he, hl, hr⟩ := findGroup_sound hf
          exact ⟨by rw [he]; simp, hl, hr⟩
        | none => rw [hf] at h; cases h
    · rw [if_neg h1] at h
      match hf : findGroup rest with
      | some (b', i', a') =>
        rw [hf] at h
        cases h
        obtain ⟨he, hl, hr⟩ := findGroup_sound hf
        exact ⟨by rw [he]; simp, hl, hr⟩
      | none => rw [hf] at h; cases h

theorem findGroup_eq_none_of_not_mem :
    ∀ {cs : List Char}, '(' ∉ cs → findGroup cs = none
  | [], _ => rfl
  | c :: rest, h => by
    have hc : ¬c = '(' := fun hc => h (hc ▸ List.mem_cons_self c rest)
    have hrest : '(' ∉ rest := fun hr => h (List.mem_cons_of_mem c hr)
    unfold findGroup
    rw [if_neg hc, findGroup_eq_none_of_not_mem hrest]

theorem listReplaceFirst_cons (pat rep : List Char) (c : Char) (rest : List Char) :
    listReplaceFirst pat rep (c :: rest) =
      if pat.isPrefixOf (c :: rest) then rep ++ (c :: rest).drop pat.length
      else c :: listReplaceFirst pat rep rest := rfl

theorem listReplaceFirst_of_occurs {pat rep : List Char} :
    ∀ {cs pre post : List Char}, cs = pre ++ pat ++ post →
      ∃ pre' post', cs = pre' ++ pat ++ post' ∧
        listReplaceFirst pat rep cs = pre' ++ rep ++ post' := by
  intro cs
  induction cs with
  | nil =>
    intro pre post he
    have hpre : pre = [] := by
      cases pre with
      | nil => rfl
      | cons x xs => simp at he
    subst hpre
    have hpat : pat = [] := by
      cases pat with
      | nil => rfl
      | cons x xs => simp at he
    subst hpat
    refine ⟨[], [], by simp, ?_⟩
    simp [listReplaceFirst, List.isPrefixOf]
  | cons c rest ih =>
    intro pre post he
    by_cases hp : pat.isPrefixOf (c :: rest)
    · obtain ⟨t, ht⟩ := List.isPrefixOf_iff_prefix.mp hp
      refine ⟨[], t, by simp [← ht], ?_⟩
      rw [listReplaceFirst_cons, if_pos hp, ← ht, List.drop_left]
      simp
    · cases pre with
      | nil =>
        exfalso
        apply hp
        rw [List.isPrefixOf_iff_prefix]
        exact ⟨post, by simpa using he.symm⟩
      | cons x xs =>
        rw [List.cons_append, List.cons_append] at he
        injection he with h1 h2
        subst h1
        obtain ⟨pre', post', he', hr⟩ := ih h2
        refine ⟨c :: pre', post', by simp [he'], ?_⟩
        rw [listReplaceFirst_cons, if_neg hp, hr]
        simp

/-! ### The generated identifiers contain no parentheses -/

theorem digitChar_ne_paren (d : Nat) :
    digitChar d ≠ '(' ∧ digitChar d ≠ ')' := by
  unfold digitChar
  split <;> exact ⟨by decide, by decide⟩

theorem natDigitsAux_not_paren :
    ∀ (fuel n : Nat), '(' ∉ natDigitsAux fuel n ∧ ')' ∉ natDigitsAux fuel n
  | 0, n => by simp [natDigitsAux]
  | fuel + 1, n => by
    show '(' ∉ (if n < 10 then [digitChar n]
        else natDigitsAux fuel (n / 10) ++ [digitChar (n % 10)]) ∧
      ')' ∉ (if n < 10 then [digitChar n]
        else natDigitsAux fuel (n / 10) ++ [digitChar (n % 10)])
    split
    · constructor
      · simp [(digitChar_ne_paren n).1.symm]
      · simp [(digitChar_ne_paren n).2.symm]
    · obtain ⟨ih1, ih2⟩ := natDigitsAux_not_paren fuel (n / 10)
      constructor
      · simp only [List.mem_append, not_or]
        exact ⟨ih1, by simp [(digitChar_ne_paren (n % 10)).1.symm]⟩
      · simp only [List.mem_append, not_or]
        exact ⟨ih2, by simp [(digitChar_ne_paren (n % 10)).2.symm]⟩

theorem natDigits_not_paren (n : Nat) :
    '(' ∉ natDigits n ∧ ')' ∉ natDigits n :=
  natDigitsAux_not_paren (n + 1) n

theorem segment_not_paren (r : Nat) :
    '(' ∉ ("segment_" ++ natToString r).data ∧
      ')' ∉ ("segment_" ++ natToString r).data := by
  rw [String.data_append]
  obtain ⟨h1, h2⟩ := natDigits_not_paren r
  constructor
  · simp only [List.mem_append, not_or]
    exact ⟨by decide, h1⟩
  · simp only [List.mem_append, not_or]
    exact ⟨by decide, h2⟩

theorem sectionLoop_succ (seg : String) (fuel k : Nat) (s : String)
    (acc : List (String × String)) :
    sectionLoop seg (fuel + 1) k s acc =
      match findGroup s.data with
      | none => (s, acc)
      | some (_, inner, _) =>
        let ident := seg ++ natToString k
        sectionLoop seg fuel (k + 1)
          (jsReplaceFirst s ("(" ++ String.mk inner ++ ")") ident)
          (acc ++ [(ident, String.mk inner)]) := rfl

theorem sectionLoop_of_none {seg : String} {fuel k : Nat} {s : String}
    {acc : List (String × String)} (h : findGroup s.data = none) :
    sectionLoop seg fuel k s acc = (s, acc) := by
  cases fuel with
  | zero => rfl
  | succ f => rw [sectionLoop_succ, h]

/-- Replacing the matched group (whose text contains exactly one `(`) by an
identifier without parentheses lowers the `(`-count by one. -/
theorem replace_group_count {s : String} {b i a : List Char} {ident : String}
    (hf : findGroup s.data = some (b, i, a)) (hid : '(' ∉ ident.data) :
    (jsReplaceFirst s ("(" ++ String.mk i ++ ")") ident).data.count '(' + 1 =
      s.data.count '(' := by
  obtain ⟨he, hl, _⟩ := findGroup_sound hf
  have hpat : ("(" ++ String.mk i ++ ")").data = '(' :: (i ++ [')']) := by
    rw [String.data_append, String.data_append]
    rfl
  have hocc : s.data = b ++ ("(" ++ String.mk i ++ ")").data ++ a := by
    rw [hpat, he]
    simp
  obtain ⟨pre, post, hocc', hrep⟩ :=
    @listReplaceFirst_of_occurs _ ident.data _ _ _ hocc
  have hdata : (jsReplaceFirst s ("(" ++ String.mk i ++ ")") ident).data =
      pre ++ ident.data ++ post := hrep
  have hcpat : ("(" ++ String.mk i ++ ")").data.count '(' = 1 := by
    rw [hpat, List.count_cons]
    simp [List.count_eq_zero.mpr hl]
  have hcid : ident.data.count '(' = 0 := List.count_eq_zero.mpr hid
  rw [hdata, hocc']
  simp only [List.count_append, hcpat, hcid]
  omega

/-- With fuel exceeding the number of `(` characters, the replacement loop
reaches a string in which no group matches. -/
theorem sectionLoop_no_group {seg : String} (hseg : '(' ∉ seg.data) :
    ∀ fuel k (s : String) acc, s.data.count '(' < fuel →
      findGroup ((sectionLoop seg fuel k s acc).1).data = none := by
  intro fuel
  induction fuel with
  | zero => intro k s acc h; omega
  | succ f ih =>
    intro k s acc h
    rw [sectionLoop_succ]
    match hf : findGroup s.data with
    | none => exact hf
    | some (b, i, a) =>
      simp only
      apply ih
      have hid : '(' ∉ (seg ++ natToString k).data := by
        rw [String.data_append]
        simp only [List.mem_append, not_or]
        exact ⟨hseg, (natDigits_not_paren k).1⟩
      have := replace_group_count hf hid
      omega

/-- After preprocessing, the flattened string contains no matchable group. -/
theorem splitEmmetIntoSections_no_group (r : Nat) (s : String) :
    findGroup ((splitEmmetIntoSections ("segment_" ++ natToString r) s).1).data
      = none := by
  unfold splitEmmetIntoSections
  apply sectionLoop_no_group (segment_not_paren r).1
  have h1 : s.data.count '(' ≤ s.data.length := List.count_le_length '(' s.data
  have h2 : s.length = s.data.length := rfl
  omega

/-- A string without `(` is left untouched by the preprocessor, with an
empty placeholder map. -/
theorem splitEmmetIntoSections_of_no_paren {seg s : String}
    (h : '(' ∉ s.data) : splitEmmetIntoSections seg s = (s, []) := by
  unfold splitEmmetIntoSections
  exact sectionLoop_of_none (findGroup_eq_none_of_not_mem h)

/-! ### Whitespace normalization facts -/

theorem collapseWsAux_mem :
    ∀ {b : Bool} {cs : List Char} {c : Char}, c ∈ collapseWsAux b cs →
      c = ' ' ∨ c ∈ cs
  | b, x :: xs, c, h => by
    unfold collapseWsAux at h
    by_cases hw : jsWhitespace x
    · rw [if_pos hw] at h
      split at h
      · rcases collapseWsAux_mem h with h1 | h1
        · exact Or.inl h1
        · exact Or.inr (List.mem_cons_of_mem x h1)
      · rcases List.mem_cons.mp h with h1 | h1
        · exact Or.inl h1
        · rcases collapseWsAux_mem h1 with h2 | h2
          · exact Or.inl h2
          · exact Or.inr (List.mem_cons_of_mem x h2)
    · rw [if_neg hw] at h
      rcases List.mem_cons.mp h with h1 | h1
      · exact Or.inr (h1 ▸ List.mem_cons_self x xs)
      · rcases collapseWsAux_mem h1 with h2 | h2
        · exact Or.inl h2
        · exact Or.inr (List.mem_cons_of_mem x h2)

theorem normalize_no_paren {s : String} (h : '(' ∉ s.data) :
    '(' ∉ (normalize s).data := by
  intro hc
  rcases collapseWsAux_mem hc with h1 | h1
  · cases h1
  · exact h (List.mem_of_mem_filter h1)

/-! ### Facts about the driver -/

theorem createParalel_zero (m : List (String × String)) (s : String) :
    createParalel m 0 s = .error .fuelExhausted := rfl

theorem createParalel_succ (m : List (String × String)) (fuel : Nat) (s : String) :
    createParalel m (fuel + 1) s =
      parMap m fuel ((jsSplit '+' s).map jsTrim) := rfl

theorem parMap_zero (m : List (String × String)) (xs : List String) :
    parMap m 0 xs = .error .fuelExhausted := rfl

theorem parMap_succ_nil (m : List (String × String)) (fuel : Nat) :
    parMap m (fuel + 1) [] = .ok [] := rfl

theorem parMap_succ_cons (m : List (String × String)) (fuel : Nat)
    (x : String) (xs : List String) :
    parMap m (fuel + 1) (x :: xs) =
      (do
        let e ← createParental m fuel x
        let es ← parMap m fuel xs
        .ok (e :: es)) := rfl

theorem createParental_zero (m : List (String × String)) (s : String) :
    createParental m 0 s = .error .fuelExhausted := rfl

theorem createParental_succ (m : List (String × String)) (fuel : Nat) (s : String) :
    createParental m (fuel + 1) s =
      (match (jsSplit '>' s).map jsTrim with
      | [] => .error .internalUndefined
      | first :: rest =>
        if first = "" then .error .invalidExpression
        else do
          let es ← createHTMLElement m fuel first
          match es with
          | [] => .error .internalUndefined
          | p :: _ => do
            let rss ← chainMap m fuel rest
            .ok (attachChain rss p)) := rfl

theorem chainMap_zero (m : List (String × String)) (xs : List String) :
    chainMap m 0 xs = .error .fuelExhausted := rfl

theorem chainMap_succ_nil (m : List (String × String)) (fuel : Nat) :
    chainMap m (fuel + 1) [] = .ok [] := rfl

theorem chainMap_succ_cons (m : List (String × String)) (fuel : Nat)
    (x : String) (xs : List String) :
    chainMap m (fuel + 1) (x :: xs) =
      (do
        let r ← createHTMLElement m fuel x
        let rs ← chainMap m fuel xs
        .ok (r :: rs)) := rfl

theorem createHTMLElement_zero (m : List (String × String)) (s : String) :
    createHTMLElement m 0 s = .error .fuelExhausted := rfl

theorem createHTMLElement_succ (m : List (String × String)) (fuel : Nat) (s : String) :
    createHTMLElement m (fuel + 1) s =
      match m.lookup s with
      | some content => createParalel m fuel content
      | none =>
        match simplifiedEmmetToElement s with
        | .ok e => .ok [e]
        | .error err => .error err := rfl

/-- A successful `parMap` produces exactly one element per piece. -/
theorem parMap_ok_length {m : List (String × String)} :
    ∀ {fuel : Nat} {xs : List String} {es : List Element},
      parMap m fuel xs = .ok es → es.length = xs.length
  | 0, xs, es, h => by rw [parMap_zero] at h; cases h
  | fuel + 1, [], es, h => by
    rw [parMap_succ_nil] at h
    cases h
    rfl
  | fuel + 1, x :: xs, es, h => by
    rw [parMap_succ_cons] at h
    match hc : createParental m fuel x with
    | .error e => rw [hc] at h; cases h
    | .ok e =>
      rw [hc] at h
      match hp : parMap m fuel xs with
      | .error e2 => rw [hp] at h; cases h
      | .ok es' =>
        rw [hp] at h
        cases h
        have := parMap_ok_length hp
        simp [this]

/-- A successful expansion never produces an empty list of elements, neither
through `createParalel` (the `+`-split always has at least one piece) nor
through `createHTMLElement` (a leaf gives one element, a placeholder
re-enters `createParalel`). -/
theorem ok_ne_nil (m : List (String × String)) :
    ∀ fuel : Nat,
      (∀ s es, createParalel m fuel s = .ok es → es ≠ []) ∧
      (∀ s es, createHTMLElement m fuel s = .ok es → es ≠ []) := by
  intro fuel
  induction fuel with
  | zero =>
    constructor
    · intro s es h; rw [createParalel_zero] at h; cases h
    · intro s es h; rw [createHTMLElement_zero] at h; cases h
  | succ f ih =>
    constructor
    · intro s es h
      rw [createParalel_succ] at h
      have hlen := parMap_ok_length h
      have hne : (jsSplit '+' s).map jsTrim ≠ [] := by
        intro hnil
        exact jsSplit_ne_nil (List.map_eq_nil_iff.mp hnil)
      intro hes
      subst hes
      simp only [List.length_nil] at hlen
      exact hne (List.eq_nil_of_length_eq_zero hlen.symm)
    · intro s es h
      rw [createHTMLElement_succ] at h
      match hlk : m.lookup s with
      | some content =>
        rw [hlk] at h
        exact ih.1 content es h
      | none =>
        rw [hlk] at h
        match hs : simplifiedEmmetToElement s with
        | .ok e => rw [hs] at h; cases h; simp
        | .error err => rw [hs] at h; cases h

/-! ### Facts about attribute parsing -/

theorem parseAttrToken_eq (attr : String) :
    parseAttrToken attr =
      (match jsSplit '=' (jsTrim attr) with
      | p0 :: p1 :: _ =>
        if jsIndexOf p1 '"' ≠ -1 then
          .ok (p0, jsSubstring p1 1 (jsLastIndexOf p1 '"'))
        else .ok (p0, p1)
      | _ => .error .attributeSyntax) := rfl

/-- Function `parseAttrToken` either succeeds or fails with the attribute syntax
error. -/
theorem parseAttrToken_cases (attr : String) :
    (∃ p, parseAttrToken attr = .ok p) ∨
      parseAttrToken attr = .error .attributeSyntax := by
  rw [parseAttrToken_eq]
  rcases jsSplit '=' (jsTrim attr) with _ | ⟨p0, _ | ⟨p1, t⟩⟩
  · exact Or.inr rfl
  · exact Or.inr rfl
  · by_cases hq : jsIndexOf p1 '"' ≠ -1
    · exact Or.inl ⟨_, if_pos hq⟩
    · exact Or.inl ⟨_, if_neg hq⟩

/-- A token without `=` fails: the split has a single piece, so the JS code
reads `parts[1]` of `undefined`. -/
theorem parseAttrToken_no_eq {attr : String} (h : '=' ∉ (jsTrim attr).data) :
    parseAttrToken attr = .error .attributeSyntax := by
  have hsplit : jsSplit '=' (jsTrim attr) = [jsTrim attr] := by
    unfold jsSplit
    rw [jsSplitChar_of_not_mem h]
    rfl
  rw [parseAttrToken_eq, hsplit]

/-- If any token in the list fails, the whole traversal fails with the
attribute syntax error. -/
theorem parseAttrList_error_of_mem :
    ∀ {xs : List String} {t : String}, t ∈ xs →
      parseAttrToken t = .error .attributeSyntax →
      parseAttrList xs = .error .attributeSyntax := by
  intro xs
  induction xs with
  | nil => intro t ht _; cases ht
  | cons x rest ih =>
    intro t ht herr
    rcases List.mem_cons.mp ht with h1 | h1
    · subst h1
      unfold parseAttrList
      rw [herr]
      rfl
    · unfold parseAttrList
      rcases parseAttrToken_cases x with ⟨p, hp⟩ | hp
      · rw [hp, ih h1 herr]
        rfl
      · rw [hp]
        rfl

theorem simplifiedEmmetToElement_eq (s : String) :
    simplifiedEmmetToElement s =
      (do
        let aws ← extractAttributes (extractText (normalize s)).2
        let tic := parseTagIdClasses aws.2
        Except.ok (Element.mk tic.1 tic.2.1 tic.2.2
          (if (extractText (normalize s)).1 = "" then none
            else some (extractText (normalize s)).1) aws.1 [])) := rfl

theorem extractAttributes_eq (s : String) :
    extractAttributes s =
      (if jsLastIndexOf s '[' = -1 then .ok ([], s)
      else do
        let attrs ← parseAttrList (attributeTokens s)
        .ok (attrs, jsReplaceFirst s ("[" ++ attributeText s ++ "]") "")) := rfl

theorem attributeTokens_guard {s t : String} (h : t ∈ attributeTokens s) :
    ¬jsLastIndexOf s '[' = -1 := by
  intro hg
  unfold attributeTokens at h
  rw [if_pos hg] at h
  cases h

theorem extractAttributes_error_of_bad_token {s t : String}
    (ht : t ∈ attributeTokens s) (h : '=' ∉ (jsTrim t).data) :
    extractAttributes s = .error .attributeSyntax := by
  rw [extractAttributes_eq, if_neg (attributeTokens_guard ht),
    parseAttrList_error_of_mem ht (parseAttrToken_no_eq h)]
  rfl

theorem parseTagIdClasses_eq (s : String) :
    parseTagIdClasses s =
      (match jsSplit '.' s with
      | [] => ("div", none, [])
      | beforeClasses :: classes =>
        let bits := jsSplit '#' beforeClasses
        let tagName := bits.headD ""
        let idv : Option String :=
          match bits with
          | _ :: i :: _ => if i = "" then none else some (jsTrim i)
          | _ => none
        ((if jsTrim tagName = "" then "div" else jsTrim tagName), idv,
          classes.map jsTrim)) := rfl

/-! ### Claim theorems -/

/-- Claim C1 (confirmed): in a descendant chain split on `>`, every element
produced by resolving a subsequent piece is appended as a child of exactly
the first element produced by the previous piece's resolution, and the chain
returns the root descriptor of the first piece.  The first conjunct states
the general shape of `createParental` (result = first element of the first
piece's resolution with the later resolutions attached along first
elements); the second is the spec's grouped example; the third is a chain
whose middle level has two siblings, showing the next level attaches to the
first of them only. -/
theorem claim_C1 :
    (∀ (m : List (String × String)) (fuel : Nat) (s first : String)
      (rest : List String) (p : Element) (ps : List Element)
      (rss : List (List Element)),
      (jsSplit '>' s).map jsTrim = first :: rest → first ≠ "" →
      createHTMLElement m fuel first = .ok (p :: ps) →
      chainMap m fuel rest = .ok rss →
      createParental m (fuel + 1) s = .ok (attachChain rss p)) ∧
    emmetToElements 0 100 "section>(header>h1{H}+p{P})" =
      .ok [Element.mk "section" none [] none []
        [Element.mk "header" none [] none []
          [Element.mk "h1" none [] (some "H") [] []],
         Element.mk "p" none [] (some "P") [] []]] ∧
    emmetToElements 0 100 "x>(a+b)>c" =
      .ok [Element.mk "x" none [] none []
        [Element.mk "a" none [] none [] [Element.mk "c" none [] none [] []],
         Element.mk "b" none [] none [] []]] := by
  refine ⟨?_, by decide, by decide⟩
  intro m fuel s first rest p ps rss hs hne hh hc
  rw [createParental_succ, hs]
  dsimp only
  rw [if_neg hne]
  simp [Bind.bind, Except.bind, hh, hc]

/-- Witness for the general conjunct of `claim_C1` at the chain `"a>b"`. -/
theorem claim_C1_witness :
    createParental [] 11 "a>b" =
      .ok (attachChain [[Element.mk "b" none [] none [] []]]
        (Element.mk "a" none [] none [] [])) :=
  claim_C1.1 [] 10 "a>b" "a" ["b"] (Element.mk "a" none [] none [] []) []
    [[Element.mk "b" none [] none [] []]] (by decide) (by decide) (by decide)
    (by decide)

/-- Claim C3 (confirmed): the grouping preprocessor repeatedly replaces the
first innermost parenthesized group by a fresh recorded placeholder until no
group matches (conjunct 2: the resulting string has no residual match;
conjunct 3: a concrete replacement), and unmatched parentheses are left in
the string as literal text with no error (conjunct 1: a string with no
matchable group is returned unchanged with no map entries; conjuncts 4-5:
concrete unbalanced inputs). -/
theorem claim_C3 :
    (∀ (seg : String) (fuel k : Nat) (s : String) (acc : List (String × String)),
      findGroup s.data = none → sectionLoop seg fuel k s acc = (s, acc)) ∧
    (∀ (r : Nat) (s : String),
      findGroup ((splitEmmetIntoSections ("segment_" ++ natToString r) s).1).data
        = none) ∧
    splitEmmetIntoSections "segment_7" "x>(a+b)" =
      ("x>segment_70", [("segment_70", "a+b")]) ∧
    splitEmmetIntoSections "segment_7" "a(b+c" = ("a(b+c", []) ∧
    splitEmmetIntoSections "segment_7" "a)b(+c" = ("a)b(+c", []) :=
  ⟨fun _ _ _ _ _ h => sectionLoop_of_none h,
   splitEmmetIntoSections_no_group,
   by decide, by decide, by decide⟩

/-- Witness for the hypothesis-bearing conjunct of `claim_C3`. -/
theorem claim_C3_witness :
    sectionLoop "segment_7" 5 0 "abc" [] = ("abc", []) :=
  claim_C3.1 "segment_7" 5 0 "abc" [] (by decide)

/-- Counterexample to claim C4: the claim demands that an input whose
descendant split on `>` yields an empty trimmed piece fail with
InvalidExpression, but `"div>"` (whose `>`-split is `["div", ""]`) does not
fail: the empty non-first piece silently expands to a default `div` child. -/
theorem claim_C4_counterexample :
    emmetToElements 0 100 "div>" =
      .ok [Element.mk "div" none [] none []
        [Element.mk "div" none [] none [] []]] := by decide

/-- Claim C4 (corrected): an empty trimmed piece at the *start* of a
descendant chain raises InvalidExpression (conjunct 1), hence every empty
top-level sibling piece is rejected when reached; in particular the empty
string input (conjunct 2, for every random draw and ample fuel) and a
trailing `+` as in `"div+"` (conjunct 3) fail with InvalidExpression.  A
non-first empty descendant piece (e.g. `"div>"`) is *not* rejected — see
`claim_C4_counterexample`. -/
theorem claim_C4 :
    (∀ (m : List (String × String)) (fuel : Nat) (s : String),
      ((jsSplit '>' s).map jsTrim).headD "" = "" →
      createParental m (fuel + 1) s = .error .invalidExpression) ∧
    (∀ (r fuel : Nat), emmetToElements r (fuel + 3) "" = .error .invalidExpression) ∧
    emmetToElements 0 100 "div+" = .error .invalidExpression := by
  refine ⟨?_, fun r fuel => rfl, by decide⟩
  intro m fuel s h
  match hs : (jsSplit '>' s).map jsTrim with
  | [] => exact absurd (List.map_eq_nil_iff.mp hs) jsSplit_ne_nil
  | first :: rest =>
    rw [hs] at h
    simp only [List.headD] at h
    rw [createParental_succ, hs]
    dsimp only
    rw [if_pos h]

/-- Witness for the hypothesis-bearing conjunct of `claim_C4` at `">x"`. -/
theorem claim_C4_witness :
    createParental [] 5 ">x" = .error .invalidExpression :=
  claim_C4.1 [] 4 ">x" (by decide)

/-- Counterexample to claim C8: `"segment_50>(a)"` has balanced parentheses
and no `+`/`>` inside `{}`/`[]` blocks, yet two invocations whose internal
random draws are 5 and 7 produce structurally different trees, because the
generated placeholder token `segment_50` collides with literal input text
when the draw is 5. -/
theorem claim_C8_counterexample :
    emmetToElements 5 100 "segment_50>(a)" ≠
      emmetToElements 7 100 "segment_50>(a)" := by decide

/-- Claim C8 (corrected): determinism across the internal random draw holds
for inputs containing no parenthesis character (no grouping, so the random
placeholder prefix is never consulted); with parentheses present, an input
containing placeholder-shaped text can differ between draws
(`claim_C8_counterexample`). -/
theorem claim_C8 :
    ∀ (r1 r2 fuel : Nat) (s : String), '(' ∉ s.data →
      emmetToElements r1 fuel s = emmetToElements r2 fuel s := by
  intro r1 r2 fuel s h
  unfold emmetToElements
  dsimp only
  rw [splitEmmetIntoSections_of_no_paren (normalize_no_paren h),
      splitEmmetIntoSections_of_no_paren (normalize_no_paren h)]

/-- Witness for `claim_C8` at a parenthesis-free input. -/
theorem claim_C8_witness :
    emmetToElements 1 50 "div>p" = emmetToElements 2 50 "div>p" :=
  claim_C8 1 2 50 "div>p" (by decide)

/-- Claim C5 (confirmed): an attribute token inside a `[...]` block that
contains no `=` makes leaf expansion fail with the attribute syntax error
(the JS code crashes reading `parts[1]` of `undefined`; the design calls
this AttributeSyntaxError) rather than produce an element: conjunct 1 for a
single token, conjunct 2 end to end for any input with such a token in its
attribute block, conjunct 3 the spec's `"div[foo]"` example. -/
theorem claim_C5 :
    (∀ attr : String, '=' ∉ (jsTrim attr).data →
      parseAttrToken attr = .error .attributeSyntax) ∧
    (∀ s t : String, t ∈ attributeTokens ((extractText (normalize s)).2) →
      '=' ∉ (jsTrim t).data →
      simplifiedEmmetToElement s = .error .attributeSyntax) ∧
    simplifiedEmmetToElement "div[foo]" = .error .attributeSyntax := by
  refine ⟨fun attr h => parseAttrToken_no_eq h, ?_, by decide⟩
  intro s t ht h
  rw [simplifiedEmmetToElement_eq, extractAttributes_error_of_bad_token ht h]
  rfl

/-- Witness for the hypothesis-bearing conjuncts of `claim_C5`. -/
theorem claim_C5_witness :
    parseAttrToken "foo" = .error .attributeSyntax ∧
    simplifiedEmmetToElement "x[p q]" = .error .attributeSyntax :=
  ⟨claim_C5.1 "foo" (by decide),
   claim_C5.2.1 "x[p q]" "p" (by decide) (by decide)⟩

/-- Claim C7 (confirmed): splitting the remaining leaf string on `.` yields
the tag/id part followed by the class tokens in order (conjunct 2), with one
class token per `.` — so empty tokens from consecutive dots are preserved,
not dropped (conjunct 1 counts them) — each class token trimmed (conjunct 2
and the example), and the tag defaulting to `"div"` when blank after
trimming (conjunct 3 and the last example). -/
theorem claim_C7 :
    (∀ s : String, (parseTagIdClasses s).2.2.length = s.data.count '.') ∧
    (∀ s : String, (parseTagIdClasses s).2.2 = ((jsSplit '.' s).drop 1).map jsTrim) ∧
    (∀ s : String, jsTrim ((jsSplit '#' ((jsSplit '.' s).headD "")).headD "") = "" →
      (parseTagIdClasses s).1 = "div") ∧
    simplifiedEmmetToElement "span. a..b." =
      .ok (Element.mk "span" none ["a", "", "b", ""] none [] []) ∧
    simplifiedEmmetToElement ".x" =
      .ok (Element.mk "div" none ["x"] none [] []) := by
  refine ⟨?_, ?_, ?_, by decide, by decide⟩
  · intro s
    match hs : jsSplit '.' s with
    | [] => exact absurd hs jsSplit_ne_nil
    | bc :: cls =>
      rw [parseTagIdClasses_eq, hs]
      dsimp only
      have hlen : (jsSplit '.' s).length = s.data.count '.' + 1 := by
        unfold jsSplit
        rw [List.length_map]
        exact jsSplitChar_length s.data
      rw [hs] at hlen
      simp only [List.length_cons, List.length_map] at hlen ⊢
      omega
  · intro s
    match hs : jsSplit '.' s with
    | [] => exact absurd hs jsSplit_ne_nil
    | bc :: cls =>
      rw [parseTagIdClasses_eq, hs]
      dsimp only
      simp
  · intro s h
    match hs : jsSplit '.' s with
    | [] => exact absurd hs jsSplit_ne_nil
    | bc :: cls =>
      rw [hs] at h
      simp only [List.headD_cons] at h
      rw [parseTagIdClasses_eq, hs]
      dsimp only
      rw [if_pos h]

/-- Witness for the hypothesis-bearing conjunct of `claim_C7`. -/
theorem claim_C7_witness : (parseTagIdClasses ".x").1 = "div" :=
  claim_C7.2.2.1 ".x" (by decide)

/-- Claim C9 (confirmed): the sibling split always produces at least one
piece, and a successful resolution (via `createParalel` or
`createHTMLElement`) never yields zero elements, so taking the first element
of a resolution result is always well-defined. -/
theorem claim_C9 :
    (∀ s : String, jsSplit '+' s ≠ []) ∧
    (∀ (m : List (String × String)) (fuel : Nat) (s : String) (es : List Element),
      createParalel m fuel s = .ok es → es ≠ []) ∧
    (∀ (m : List (String × String)) (fuel : Nat) (s : String) (es : List Element),
      createHTMLElement m fuel s = .ok es → es ≠ []) :=
  ⟨fun _ => jsSplit_ne_nil,
   fun m fuel s es h => (ok_ne_nil m fuel).1 s es h,
   fun m fuel s es h => (ok_ne_nil m fuel).2 s es h⟩

/-- Witness for the hypothesis-bearing conjuncts of `claim_C9`. -/
theorem claim_C9_witness :
    jsSplit '+' "div" ≠ [] ∧
    ([Element.mk "div" none [] none [] []] : List Element) ≠ [] :=
  ⟨claim_C9.1 "div",
   claim_C9.2.1 [] 10 "div" [Element.mk "div" none [] none [] []] (by decide)⟩

/-- Claim C10 (confirmed): the leaf entry point returns the default `div`
descriptor (no id, classes, attributes or text) on the empty string and on
whitespace-only strings, raising no error, while the full-grammar entry
point fails with InvalidExpression on empty input. -/
theorem claim_C10 :
    simplifiedEmmetToElement "" = .ok (Element.mk "div" none [] none [] []) ∧
    simplifiedEmmetToElement " " = .ok (Element.mk "div" none [] none [] []) ∧
    simplifiedEmmetToElement " \t " = .ok (Element.mk "div" none [] none [] []) ∧
    (∀ (r fuel : Nat), emmetToElements r (fuel + 3) "" = .error .invalidExpression) :=
  ⟨by decide, by decide, by decide, fun r fuel => rfl⟩

/-- Counterexample to claim C2: in the token `a}b{c}` the first `}` after
the last `{` delimits the text `"c"`, but the code uses the first `}` of the
whole token (before the `{`), and JS `substring` swaps the out-of-order
bounds, extracting `"}b{"` instead. -/
theorem claim_C2_counterexample :
    (simplifiedEmmetToElement (String.mk ['a', '}', 'b', '{', 'c', '}'])).map
        Element.text = .ok (some (String.mk ['}', 'b', '{'])) ∧
    (simplifiedEmmetToElement (String.mk ['a', '}', 'b', '{', 'c', '}'])).map
        Element.text ≠ .ok (some "c") :=
  ⟨by decide, by decide⟩

/-- Claim C2 (corrected): for a leaf token containing `{` (last `{` at index
`i`), the extracted text is the substring between index `i + 1` and the
index of the first `}` of the *whole* token (0 when there is no `}`), with
the bounds swapped when out of order (`textSpecAmended`), and everything
from the last `{` to the end is removed from the working string before
attribute and tag/id/class parsing (conjunct 1, second component; the
pipeline order is conjunct 3, which determines the element's text from the
extraction).  Without `{` the token is left unchanged (conjunct 2). -/
theorem claim_C2 :
    (∀ (s : String) (i : Nat), lastIdxOf? '{' s.data = some i →
      extractText s =
        (String.mk (textSpecAmended s.data i), String.mk (s.data.take i))) ∧
    (∀ s : String, lastIdxOf? '{' s.data = none → extractText s = ("", s)) ∧
    (∀ (s : String) (e : Element), simplifiedEmmetToElement s = .ok e →
      e.text = (if (extractText (normalize s)).1 = "" then none
        else some (extractText (normalize s)).1)) := by
  refine ⟨?_, ?_, ?_⟩
  · intro s i h
    have hlen : i < s.data.length := lastIdxOf?_lt_length h
    have hL : jsLastIndexOf s '{' = (i : Int) := by
      unfold jsLastIndexOf
      rw [h]
    unfold extractText
    rw [hL, if_neg (by omega : ¬((i : Int) = -1))]
    have hc1 : clampIdx s.data.length ((i : Int) + 1) = i + 1 := by
      unfold clampIdx
      omega
    have hc0 : clampIdx s.data.length 0 = 0 := by
      unfold clampIdx
      omega
    have hci : clampIdx s.data.length (i : Int) = i := by
      unfold clampIdx
      omega
    have e2 : jsSubstring s 0 (i : Int) = String.mk (s.data.take i) := by
      unfold jsSubstring
      dsimp only
      rw [hc0, hci]
      simp
    have e1 : jsSubstring s ((i : Int) + 1) (jsIndexOf s '}') =
        String.mk (textSpecAmended s.data i) := by
      unfold textSpecAmended
      match hj : idxOf? '}' s.data with
      | some j =>
        have hjl : j < s.data.length := idxOf?_lt_length hj
        have hJ : jsIndexOf s '}' = (j : Int) := by
          unfold jsIndexOf
          rw [hj]
        have hcj : clampIdx s.data.length (j : Int) = j := by
          unfold clampIdx
          omega
        rw [hJ]
        unfold jsSubstring
        dsimp only
        rw [hc1, hcj]
      | none =>
        have hJ : jsIndexOf s '}' = -1 := by
          unfold jsIndexOf
          rw [hj]
        rw [hJ]
        unfold jsSubstring
        dsimp only
        rw [hc1, clampIdx_neg_one]
    rw [e1, e2]
  · intro s h
    have hL : jsLastIndexOf s '{' = -1 := by
      unfold jsLastIndexOf
      rw [h]
    unfold extractText
    rw [hL, if_pos rfl]
  · intro s e h
    rw [simplifiedEmmetToElement_eq] at h
    match ha : extractAttributes (extractText (normalize s)).2 with
    | .error err =>
      rw [ha] at h
      simp [Bind.bind, Except.bind] at h
    | .ok aws =>
      rw [ha] at h
      simp only [Bind.bind, Except.bind] at h
      injection h with h
      subst h
      rfl

/-- Witness for `claim_C2` at the token `"h1{H}"` (last `{` at index 2). -/
theorem claim_C2_witness :
    extractText "h1{H}" =
      (String.mk (textSpecAmended "h1{H}".data 2),
       String.mk ("h1{H}".data.take 2)) :=
  claim_C2.1 "h1{H}" 2 (by decide)

/-- Counterexample to claim C6: in `div[a=b=c]` the token `a=b=c` should,
per the claim, keep `b=c` as the raw value of `a` (split exactly once); the
code splits on every `=` and keeps only `parts[1]`, storing `("a", "b")`. -/
theorem claim_C6_counterexample :
    (simplifiedEmmetToElement "div[a=b=c]").map Element.attrs =
      .ok [("a", "b")] ∧
    (simplifiedEmmetToElement "div[a=b=c]").map Element.attrs ≠
      .ok [("a", "b=c")] :=
  ⟨by decide, by decide⟩

/-- Claim C6 (corrected): each attribute token containing `=` is split on
*every* `=`; the name is the part before the first `=`, and the raw value is
the part between the first and second `=` (anything after a second `=` is
discarded).  When the raw value contains a `"`, the stored value is the raw
value with its first character dropped and cut before its last `"`
(JS `substring(1, lastIndexOf('"'))`, bounds swapped when the last `"` is at
index 0) — not the substring between the first and last `"`
(`valueSpecAmended`). -/
theorem claim_C6 :
    ∀ attr : String, '=' ∈ (jsTrim attr).data →
      parseAttrToken attr =
        .ok (String.mk ((jsTrim attr).data.takeWhile (fun c => c ≠ '=')),
          String.mk (valueSpecAmended
            ((((jsTrim attr).data.dropWhile (fun c => c ≠ '=')).drop 1).takeWhile
              (fun c => c ≠ '=')))) := by
  intro attr h
  have hsplit := jsSplitChar_of_mem h
  obtain ⟨t, ht⟩ :=
    @jsSplitChar_head '='
      (((jsTrim attr).data.dropWhile (fun c => c ≠ '=')).drop 1)
  have hs : jsSplit '=' (jsTrim attr) =
      String.mk ((jsTrim attr).data.takeWhile (fun c => c ≠ '=')) ::
        String.mk
          ((((jsTrim attr).data.dropWhile (fun c => c ≠ '=')).drop 1).takeWhile
            (fun c => c ≠ '=')) ::
        t.map String.mk := by
    unfold jsSplit
    rw [hsplit, ht]
    simp
  rw [parseAttrToken_eq, hs]
  dsimp only
  match hq : lastIdxOf? '"'
      ((((jsTrim attr).data.dropWhile (fun c => c ≠ '=')).drop 1).takeWhile
        (fun c => c ≠ '=')) with
  | none =>
    have hnm := lastIdxOf?_eq_none_iff.mp hq
    have hC : jsIndexOf
        (String.mk
          ((((jsTrim attr).data.dropWhile (fun c => c ≠ '=')).drop 1).takeWhile
            (fun c => c ≠ '='))) '"' = -1 := by
      unfold jsIndexOf
      rw [show (String.mk
          ((((jsTrim attr).data.dropWhile (fun c => c ≠ '=')).drop 1).takeWhile
            (fun c => c ≠ '='))).data =
          (((jsTrim attr).data.dropWhile (fun c => c ≠ '=')).drop 1).takeWhile
            (fun c => c ≠ '=') from rfl,
        idxOf?_eq_none_iff.mpr hnm]
    rw [if_neg (fun hne => hne hC)]
    unfold valueSpecAmended
    rw [hq]
  | some j =>
    have hmem : '"' ∈
        (((jsTrim attr).data.dropWhile (fun c => c ≠ '=')).drop 1).takeWhile
          (fun c => c ≠ '=') := by
      by_contra hnm
      rw [lastIdxOf?_eq_none_iff.mpr hnm] at hq
      cases hq
    have hjl := lastIdxOf?_lt_length hq
    have hlen1 : 1 ≤
        ((((jsTrim attr).data.dropWhile (fun c => c ≠ '=')).drop 1).takeWhile
          (fun c => c ≠ '=')).length :=
      List.length_pos.mpr (List.ne_nil_of_mem hmem)
    obtain ⟨j0, hj0⟩ : ∃ k, idxOf? '"'
        ((((jsTrim attr).data.dropWhile (fun c => c ≠ '=')).drop 1).takeWhile
          (fun c => c ≠ '=')) = some k := by
      match hik : idxOf? '"'
          ((((jsTrim attr).data.dropWhile (fun c => c ≠ '=')).drop 1).takeWhile
            (fun c => c ≠ '=')) with
      | some k => exact ⟨k, rfl⟩
      | none => exact absurd hmem (idxOf?_eq_none_iff.mp hik)
    have hC : jsIndexOf
        (String.mk
          ((((jsTrim attr).data.dropWhile (fun c => c ≠ '=')).drop 1).takeWhile
            (fun c => c ≠ '='))) '"' = (j0 : Int) := by
      unfold jsIndexOf
      rw [show (String.mk
          ((((jsTrim attr).data.dropWhile (fun c => c ≠ '=')).drop 1).takeWhile
            (fun c => c ≠ '='))).data =
          (((jsTrim attr).data.dropWhile (fun c => c ≠ '=')).drop 1).takeWhile
            (fun c => c ≠ '=') from rfl,
        hj0]
    have hCL : jsLastIndexOf
        (String.mk
          ((((jsTrim attr).data.dropWhile (fun c => c ≠ '=')).drop 1).takeWhile
            (fun c => c ≠ '='))) '"' = (j : Int) := by
      unfold jsLastIndexOf
      rw [show (String.mk
          ((((jsTrim attr).data.dropWhile (fun c => c ≠ '=')).drop 1).takeWhile
            (fun c => c ≠ '='))).data =
          (((jsTrim attr).data.dropWhile (fun c => c ≠ '=')).drop 1).takeWhile
            (fun c => c ≠ '=') from rfl,
        hq]
    rw [if_pos (by rw [hC]; omega), hCL]
    unfold valueSpecAmended
    rw [hq]
    unfold jsSubstring
    dsimp only
    have hc1 : clampIdx
        ((((jsTrim attr).data.dropWhile (fun c => c ≠ '=')).drop 1).takeWhile
          (fun c => c ≠ '=')).length 1 = 1 := by
      unfold clampIdx
      omega
    have hcj : clampIdx
        ((((jsTrim attr).data.dropWhile (fun c => c ≠ '=')).drop 1).takeWhile
          (fun c => c ≠ '=')).length (j : Int) = j := by
      unfold clampIdx
      omega
    rw [hc1, hcj]

/-- Witness for `claim_C6` at the token `"a=b"`. -/
theorem claim_C6_witness : parseAttrToken "a=b" = .ok ("a", "b") :=
  claim_C6 "a=b" (by decide)

end EmmetSpec
